import Mathlib

/-!
# Match-Prestige: request authentication core

Shallow embedding of the two verifiers of the repository:

* `verifyHmac` of `src/server.js` (raw-body HMAC, base64 digest);
* `verifyAppProxySignature` of `src/proxy.js` (query-string HMAC, hex digest).

JavaScript strings are sequences of UTF-16 code units and Buffers are sequences
of bytes; both are lists of naturals here.  The keyed hash of the Node `crypto`
module and the last-resort decoder of the Node `querystring` module are
parameters of the development (`Platform`): every theorem holds for each choice
of them.
-/

namespace MatchPrestige

/-- A JavaScript string: its UTF-16 code units. -/
abbrev JSString := List Nat

/-- A Node Buffer: its bytes. -/
abbrev Bytes := List Nat

/-- The exceptions the modelled primitives can throw. -/
inductive JSError where
  | TypeError
  | RangeError
  | URIError
  deriving DecidableEq, Repr

/-- The library functions that are left abstract.
`hmacSha256 key msg` is `crypto.createHmac('sha256', key).update(msg).digest()`;
`unescapeBufferToString s` is `querystring.unescapeBuffer(s).toString()`, the
decoder `querystring.unescape` falls back to when `decodeURIComponent` throws. -/
structure Platform where
  hmacSha256 : Bytes → Bytes → Bytes
  unescapeBufferToString : JSString → JSString

/-- UTF-16 code units of a Lean string literal. -/
def js (s : String) : JSString :=
  s.toList.flatMap fun c =>
    if c.toNat < 0x10000 then [c.toNat]
    else [0xD800 + (c.toNat - 0x10000) / 1024, 0xDC00 + (c.toNat - 0x10000) % 1024]

/-! ## Buffers and encodings -/

def isHighSurrogate (c : Nat) : Bool := decide (0xD800 ≤ c) && decide (c < 0xDC00)

def isLowSurrogate (c : Nat) : Bool := decide (0xDC00 ≤ c) && decide (c < 0xE000)

/-- UTF-8 bytes of one code unit that is not part of a surrogate pair; a lone
surrogate is written as U+FFFD. -/
def utf8Unit (c : Nat) : Bytes :=
  if c < 0x80 then [c]
  else if c < 0x800 then [0xC0 + c / 64, 0x80 + c % 64]
  else if isHighSurrogate c || isLowSurrogate c then [0xEF, 0xBF, 0xBD]
  else [0xE0 + c / 4096, 0x80 + c / 64 % 64, 0x80 + c % 64]

/-- UTF-8 bytes of the code point of a surrogate pair. -/
def utf8Pair (hi lo : Nat) : Bytes :=
  let cp := 0x10000 + (hi - 0xD800) * 1024 + (lo - 0xDC00)
  [0xF0 + cp / 262144, 0x80 + cp / 4096 % 64, 0x80 + cp / 64 % 64, 0x80 + cp % 64]

/-- The bytes of `Buffer.from(s)` for a string `s` (UTF-8). -/
def bufferFrom : JSString → Bytes
  | [] => []
  | [c] => utf8Unit c
  | c :: d :: rest =>
    if isHighSurrogate c && isLowSurrogate d then utf8Pair c d ++ bufferFrom rest
    else utf8Unit c ++ bufferFrom (d :: rest)

/-- The character of a 6-bit value in the base64 alphabet. -/
def base64Char (n : Nat) : Nat :=
  let v := n % 64
  if v < 26 then 65 + v
  else if v < 52 then 97 + (v - 26)
  else if v < 62 then 48 + (v - 52)
  else if v = 62 then 43
  else 47

/-- The string of `.digest('base64')`: standard alphabet, `=` padding. -/
def base64Encode : Bytes → JSString
  | [] => []
  | [a] => [base64Char (a / 4), base64Char (a % 4 * 16), 61, 61]
  | [a, b] => [base64Char (a / 4), base64Char (a % 4 * 16 + b / 16), base64Char (b % 16 * 4), 61]
  | a :: b :: c :: rest =>
    base64Char (a / 4) :: base64Char (a % 4 * 16 + b / 16) ::
      base64Char (b % 16 * 4 + c / 64) :: base64Char (c % 64) :: base64Encode rest

/-- A lower-case hexadecimal digit. -/
def hexDigit (n : Nat) : Nat :=
  let v := n % 16
  if v < 10 then 48 + v else 87 + v

/-- The string of `.digest('hex')`. -/
def hexEncode : Bytes → JSString
  | [] => []
  | b :: rest => hexDigit (b / 16) :: hexDigit b :: hexEncode rest

/-- JavaScript truthiness of a value that is a string or `undefined`:
`undefined` and the empty string are falsy. -/
def truthy : Option JSString → Bool
  | none => false
  | some s => !s.isEmpty

/-- Model of `crypto.timingSafeEqual(a, b)`: throws a `RangeError` when the two
buffers differ in byte length, else tells whether they hold the same bytes. -/
def timingSafeEqual (a b : Bytes) : Except JSError Bool :=
  if a.length ≠ b.length then .error .RangeError else .ok (decide (a = b))

/-- Model of `try { return body } catch { return handler }`. -/
def tryCatch (body : Except JSError Bool) (handler : Bool) : Except JSError Bool :=
  match body with
  | .ok b => .ok b
  | .error _ => .ok handler

/-! ## `src/server.js` -/

/-- Model of `crypto.createHmac('sha256', secret).update(rawBody, 'utf8').digest('base64')`:
the key is the UTF-8 bytes of the secret, a Buffer body is hashed as it is
(the encoding argument is ignored for a Buffer), and `update(undefined)` throws
a `TypeError`. -/
def bodyDigest (P : Platform) (rawBody : Option Bytes) (secret : JSString) :
    Except JSError JSString :=
  match rawBody with
  | none => .error .TypeError
  | some b => .ok (base64Encode (P.hmacSha256 (bufferFrom secret) b))

/-- Model of `verifyHmac(rawBody, hmacHeader, secret)` (server.js, lines 15-26).
`rawBody` is `req.rawBody` (a Buffer, or `undefined` when no body was read),
`hmacHeader` and `secret` are strings or `undefined`. -/
def verifyHmac (P : Platform) (rawBody : Option Bytes) (hmacHeader secret : Option JSString) :
    Except JSError Bool :=
  if !truthy hmacHeader || !truthy secret then .ok false
  else
    tryCatch
      (do
        let digest ← bodyDigest P rawBody (secret.getD [])
        timingSafeEqual (bufferFrom digest) (bufferFrom (hmacHeader.getD [])))
      false

/-! ## JavaScript values and objects -/

/-- The values a parsed query parameter can hold, and the two nullish values. -/
inductive JSValue where
  | undefined
  | null
  | str (s : JSString)
  | arr (xs : List JSString)
  deriving DecidableEq, Repr

/-- An object: its own properties in insertion order, each key once. -/
abbrev JSObject := List (JSString × JSValue)

/-- Model of `obj[key]`: `undefined` for a missing property. -/
def objGet : JSObject → JSString → JSValue
  | [], _ => .undefined
  | (k, v) :: rest, key => if k = key then v else objGet rest key

/-- Model of `obj[key] = v`: an existing property keeps its place, a new one
goes last. -/
def objSet : JSObject → JSString → JSValue → JSObject
  | [], key, v => [(key, v)]
  | (k, w) :: rest, key, v => if k = key then (k, v) :: rest else (k, w) :: objSet rest key v

/-- Model of `delete obj[key]`. -/
def objDelete (obj : JSObject) (key : JSString) : JSObject :=
  obj.filter fun e => decide (e.1 ≠ key)

/-- Model of `Object.keys(obj)`, in insertion order.  (V8 lists integer-like
keys first; the canonical message is shown below not to depend on the order of
enumeration.) -/
def objectKeys (obj : JSObject) : List JSString := obj.map Prod.fst

/-! ## `String.prototype.split` and the default `Array.prototype.sort` -/

/-- Model of `s.split(sep)` for a one-character separator. -/
def jsSplit (sep : Nat) : JSString → List JSString
  | [] => [[]]
  | c :: cs =>
    if c = sep then [] :: jsSplit sep cs
    else
      match jsSplit sep cs with
      | [] => [[c]]
      | h :: t => (c :: h) :: t

/-- The JavaScript `<` on strings: code unit by code unit, a proper prefix first. -/
def jsStrLt : JSString → JSString → Bool
  | [], [] => false
  | [], _ :: _ => true
  | _ :: _, [] => false
  | a :: as, b :: bs => if a < b then true else if b < a then false else jsStrLt as bs

/-- The order of the default sort comparator: `a` may stand before `b`. -/
def JSLe (a b : JSString) : Prop := jsStrLt b a = false

instance : DecidableRel JSLe := fun a b => inferInstanceAs (Decidable (jsStrLt b a = false))

/-- Model of `xs.sort()` on an array of strings. -/
def jsSort (xs : List JSString) : List JSString := List.insertionSort JSLe xs

/-! ## `decodeURIComponent` -/

def hexVal (c : Nat) : Option Nat :=
  if 48 ≤ c ∧ c ≤ 57 then some (c - 48)
  else if 65 ≤ c ∧ c ≤ 70 then some (c - 55)
  else if 97 ≤ c ∧ c ≤ 102 then some (c - 87)
  else none

/-- Reads one escape `%XX` at the head of the string. -/
def readEscape : JSString → Option (Nat × JSString)
  | 37 :: h :: l :: rest =>
    match hexVal h, hexVal l with
    | some a, some b => some (16 * a + b, rest)
    | _, _ => none
  | _ => none

/-- Reads `n` further escapes. -/
def readEscapes : Nat → JSString → Option (List Nat)
  | 0, _ => some []
  | n + 1, s =>
    match readEscape s with
    | none => none
    | some (b, rest) => (readEscapes n rest).map (b :: ·)

/-- The code point of a well-formed UTF-8 sequence with lead byte `b` and
continuation bytes `cs`. -/
def utf8CodePoint (b : Nat) (cs : List Nat) : Option Nat :=
  if cs.all fun c => decide (0x80 ≤ c) && decide (c < 0xC0) then
    match cs with
    | [c1] =>
      let v := (b - 0xC0) * 64 + (c1 - 0x80)
      if 0x80 ≤ v then some v else none
    | [c1, c2] =>
      let v := (b - 0xE0) * 4096 + (c1 - 0x80) * 64 + (c2 - 0x80)
      if 0x800 ≤ v ∧ ¬ (0xD800 ≤ v ∧ v < 0xE000) then some v else none
    | [c1, c2, c3] =>
      let v := (b - 0xF0) * 262144 + (c1 - 0x80) * 4096 + (c2 - 0x80) * 64 + (c3 - 0x80)
      if 0x10000 ≤ v ∧ v < 0x110000 then some v else none
    | _ => none
  else none

/-- The UTF-16 code units of a code point. -/
def utf16Units (v : Nat) : JSString :=
  if v < 0x10000 then [v]
  else [0xD800 + (v - 0x10000) / 1024, 0xDC00 + (v - 0x10000) % 1024]

/-- One step of `Decode` at a `%`: the decoded code units and the number of
code units of the input it used, or `none` where a `URIError` is thrown. -/
def decodeEscape (s : JSString) : Option (JSString × Nat) :=
  match readEscape s with
  | none => none
  | some (b, rest) =>
    if b < 0x80 then some ([b], 3)
    else
      let n := if b < 0xC0 then 1 else if b < 0xE0 then 2 else if b < 0xF0 then 3
        else if b < 0xF8 then 4 else 5
      if n = 1 ∨ n > 4 then none
      else
        match readEscapes (n - 1) rest with
        | none => none
        | some cs =>
          match utf8CodePoint b cs with
          | none => none
          | some v => some (utf16Units v, 3 * n)

/-- The loop of `Decode`: `skip` counts the code units already used by an
escape sequence. -/
def decodeLoop : JSString → Nat → Except JSError JSString
  | [], _ => .ok []
  | _ :: rest, skip + 1 => decodeLoop rest skip
  | c :: rest, 0 =>
    if c = 37 then
      match decodeEscape (c :: rest) with
      | none => .error .URIError
      | some (units, used) => (decodeLoop rest (used - 1)).map (units ++ ·)
    else (decodeLoop rest 0).map (c :: ·)

/-- Model of `decodeURIComponent(s)`. -/
def decodeURIComponent (s : JSString) : Except JSError JSString := decodeLoop s 0

/-! ## `querystring.parse` (Node, default options) -/

/-- Model of `querystring.unescape(s)`: `decodeURIComponent`, and the byte-wise
decoder of the module when that throws. -/
def qsUnescape (P : Platform) (s : JSString) : JSString :=
  match decodeURIComponent s with
  | .ok r => r
  | .error _ => P.unescapeBufferToString s

/-- Model of `addKeyValue(obj, key, value, keyEncoded, valEncoded, decode)`: a
first value is stored as a string, later values of the same key collect in an
array.  (The parser stores strings and arrays only, so the current value is
never `null`, for which JavaScript would throw.) -/
def addKeyValue (P : Platform) (obj : JSObject) (key value : JSString)
    (keyEncoded valEncoded : Bool) : JSObject :=
  let key := if decide (key.length > 0) && keyEncoded then qsUnescape P key else key
  let value := if decide (value.length > 0) && valEncoded then qsUnescape P value else value
  match objGet obj key with
  | .undefined => objSet obj key (.str value)
  | .arr xs => objSet obj key (.arr (xs ++ [value]))
  | .str cur => objSet obj key (.arr [cur, value])
  | .null => obj

/-- Model of `s.slice(a, b)` for `a ≤ b`. -/
def slice (s : JSString) (a b : Nat) : JSString := (s.take b).drop a

/-- The test `isHexTable[code] === 1`. -/
def isHexCode (c : Nat) : Bool := (hexVal c).isSome

/-- The local variables of the loop of `querystring.parse` (with the one-character
separators `&` and `=`, `sepIdx` is 0 at every loop head and is left out). -/
structure QSState where
  obj : JSObject
  pairs : Nat
  lastPos : Nat
  eqIdx : Nat
  key : JSString
  value : JSString
  keyEncoded : Bool
  valEncoded : Bool
  encodeCheck : Nat
  deriving DecidableEq, Repr

/-- The outcome of one turn of the loop: `return obj`, or on to the next index. -/
inductive QSLoop where
  | ret (obj : JSObject)
  | next (st : QSState)
  deriving DecidableEq, Repr

/-- The end of a pair at index `i`: store it, count it, reset the locals. -/
def qsEndPair (P : Platform) (st : QSState) (i : Nat) (key value : JSString) : QSLoop :=
  let obj := addKeyValue P st.obj key value st.keyEncoded st.valEncoded
  if st.pairs - 1 = 0 then .ret obj
  else .next ⟨obj, st.pairs - 1, i + 1, 0, [], [], false, false, 0⟩

/-- The bottom of the loop body: a `+`, or the search for an escape in the value. -/
def qsValueChar (qs : JSString) (st : QSState) (i code : Nat) : QSLoop :=
  if code = 43 then
    let value := (if st.lastPos < i then st.value ++ slice qs st.lastPos i else st.value) ++ [32]
    .next { st with value := value, lastPos := i + 1 }
  else if !st.valEncoded then
    if code = 37 then .next { st with encodeCheck := 1 }
    else if st.encodeCheck > 0 then
      if isHexCode code then
        if st.encodeCheck + 1 = 3 then
          .next { st with encodeCheck := st.encodeCheck + 1, valEncoded := true }
        else .next { st with encodeCheck := st.encodeCheck + 1 }
      else .next { st with encodeCheck := 0 }
    else .next st
  else .next st

/-- A code unit of the key that is neither `=` nor part of a first escape. -/
def qsKeyChar (qs : JSString) (st : QSState) (i code : Nat) : QSLoop :=
  if code = 43 then
    let key := (if st.lastPos < i then st.key ++ slice qs st.lastPos i else st.key) ++ [32]
    .next { st with key := key, lastPos := i + 1 }
  else qsValueChar qs st i code

/-- The body of the loop of `querystring.parse` at index `i`, code unit `code`. -/
def qsStep (P : Platform) (qs : JSString) (st : QSState) (i code : Nat) : QSLoop :=
  if code = 38 then
    if st.eqIdx < 1 then
      if st.lastPos < i then qsEndPair P st i (st.key ++ slice qs st.lastPos i) st.value
      else if st.key.length = 0 then
        if st.pairs - 1 = 0 then .ret st.obj
        else .next { st with pairs := st.pairs - 1, lastPos := i + 1, eqIdx := 0 }
      else qsEndPair P st i st.key st.value
    else if st.lastPos < i then qsEndPair P st i st.key (st.value ++ slice qs st.lastPos i)
    else qsEndPair P st i st.key st.value
  else if st.eqIdx < 1 then
    if code = 61 then
      let key := if st.lastPos < i then st.key ++ slice qs st.lastPos i else st.key
      .next { st with eqIdx := st.eqIdx + 1, key := key, encodeCheck := 0, lastPos := i + 1 }
    else
      let st := { st with eqIdx := 0 }
      if !st.keyEncoded then
        if code = 37 then .next { st with encodeCheck := 1 }
        else if st.encodeCheck > 0 then
          if isHexCode code then
            if st.encodeCheck + 1 = 3 then
              .next { st with encodeCheck := st.encodeCheck + 1, keyEncoded := true }
            else .next { st with encodeCheck := st.encodeCheck + 1 }
          else qsKeyChar qs { st with encodeCheck := 0 } i code
        else qsKeyChar qs st i code
      else qsKeyChar qs st i code
  else qsValueChar qs st i code

/-- The code after the loop: the leftover key or value. -/
def qsFinish (P : Platform) (qs : JSString) (st : QSState) : JSObject :=
  if st.lastPos < qs.length then
    if st.eqIdx < 1 then
      addKeyValue P st.obj (st.key ++ slice qs st.lastPos qs.length) st.value
        st.keyEncoded st.valEncoded
    else
      addKeyValue P st.obj st.key (st.value ++ slice qs st.lastPos qs.length)
        st.keyEncoded st.valEncoded
  else if st.eqIdx = 0 ∧ st.key.length = 0 then st.obj
  else addKeyValue P st.obj st.key st.value st.keyEncoded st.valEncoded

/-- The loop `for (let i = 0; i < qs.length; ++i)` from index `i` on, `rest`
being the code units from `i`. -/
def qsLoop (P : Platform) (qs : JSString) : JSString → Nat → QSState → JSObject
  | [], _, st => qsFinish P qs st
  | code :: rest, i, st =>
    match qsStep P qs st i code with
    | .ret obj => obj
    | .next st1 => qsLoop P qs rest (i + 1) st1

/-- Model of `querystring.parse(qs)`: at most 1000 pairs are read. -/
def querystringParse (P : Platform) (qs : JSString) : JSObject :=
  if qs.length = 0 then []
  else qsLoop P qs qs 0 ⟨[], 1000, 0, 0, [], [], false, false, 0⟩

/-! ## `src/proxy.js` -/

/-- Model of `req.originalUrl.split('?')[1] || ''` (proxy.js, line 28). -/
def rawQuery (originalUrl : JSString) : JSString :=
  match (jsSplit 63 originalUrl)[1]? with
  | some q => if q.isEmpty then [] else q
  | none => []

/-- Model of `Array.isArray(value) ? value.join(',') : (value ?? '')`
(proxy.js, line 40). -/
def valueString : JSValue → JSString
  | .arr xs => [44].intercalate xs
  | .str s => s
  | .undefined => []
  | .null => []

/-- The component of a key: the template string of proxy.js, line 41. -/
def component (params : JSObject) (key : JSString) : JSString :=
  key ++ [61] ++ valueString (objGet params key)

/-- Model of `Object.keys(params).map(...).sort().join('')` (proxy.js, lines 37-44). -/
def canonicalMessage (params : JSObject) : JSString :=
  (jsSort ((objectKeys params).map (component params))).flatten

/-- Model of `crypto.createHmac('sha256', secret).update(message).digest('hex')`
(proxy.js, lines 46-49). -/
def queryDigest (P : Platform) (secret message : JSString) : JSString :=
  hexEncode (P.hmacSha256 (bufferFrom secret) (bufferFrom message))

/-- The name of the signature parameter. -/
def signatureKey : JSString := js "signature"

/-- Model of `verifyAppProxySignature(req, secret)` (proxy.js, lines 26-55);
of `req` only `req.originalUrl`, a string, is read.  On strings `split`,
`querystring.parse`, `Object.keys`, `sort`, `join` and the keyed hash with a
non-empty key do not throw; `timingSafeEqual` can, inside the `try`. -/
def verifyAppProxySignature (P : Platform) (originalUrl : JSString) (secret : Option JSString) :
    Except JSError Bool :=
  if !truthy secret then .ok false
  else
    let params := querystringParse P (rawQuery originalUrl)
    match objGet params signatureKey with
    | .str signature =>
      if signature.isEmpty then .ok false
      else
        let params := objDelete params signatureKey
        let message := canonicalMessage params
        let digest := queryDigest P (secret.getD []) message
        tryCatch (timingSafeEqual (bufferFrom digest) (bufferFrom signature)) false
    | _ => .ok false

/-- A platform for running examples: a toy keyed hash of 32 bytes, and the
identity as last-resort decoder. -/
def toyPlatform : Platform where
  hmacSha256 := fun key msg => List.replicate 32 ((key.sum + 31 * msg.sum + msg.length) % 256)
  unescapeBufferToString := fun s => s

/-- The bytes of the body `{"x":1}`. -/
def sampleBody : Bytes := [123, 34, 120, 34, 58, 49, 125]

/-! ## The canonical message as the specification words it -/

/-- Lexicographic order of strings by code units: equal, or smaller at the first
difference (a proper prefix being smaller). -/
def LexLe (a b : JSString) : Prop := a = b ∨ List.Lex (· < ·) a b

/-- The values of a multi-valued parameter joined by a comma, in their order. -/
def specJoinComma : List JSString → JSString
  | [] => []
  | [x] => x
  | x :: y :: rest => x ++ [44] ++ specJoinComma (y :: rest)

/-- The rendered value of a parameter: multiple values joined by a comma, an
absent or null value as the empty string. -/
def specValueText : JSValue → JSString
  | .arr xs => specJoinComma xs
  | .str s => s
  | .undefined => []
  | .null => []

/-- The component string `key=value` of a parameter. -/
def specComponent (e : JSString × JSValue) : JSString := e.1 ++ js "=" ++ specValueText e.2

/-- The canonical message in the words of the specification: `msg` is the
concatenation, without separator, of the lexicographically sorted list of the
components of the parameters. -/
def IsCanonicalMessage (params : JSObject) (msg : JSString) : Prop :=
  ∃ sorted : List JSString,
    sorted.Perm (params.map specComponent) ∧ sorted.Sorted LexLe ∧ msg = sorted.flatten

/-- Each key occurs once: the invariant of an object. -/
def NodupKeys (obj : JSObject) : Prop := (obj.map Prod.fst).Nodup

instance (obj : JSObject) : Decidable (NodupKeys obj) :=
  inferInstanceAs (Decidable (obj.map Prod.fst).Nodup)

/-- The portion of a request target after its first `?` (empty without a `?`). -/
def afterFirstQuestionMark : JSString → JSString
  | [] => []
  | c :: cs => if c = 63 then cs else afterFirstQuestionMark cs

/-- The parameter set `{a: "1", b: "2"}`. -/
def sampleParams : JSObject := [(js "a", .str (js "1")), (js "b", .str (js "2"))]

/-- The loop of `querystring.parse` over the code units `rest` from index `i`,
without the code that follows the loop. -/
def qsRun (P : Platform) (qs : JSString) : JSString → Nat → QSState → QSLoop
  | [], _, st => .next st
  | code :: rest, i, st =>
    match qsStep P qs st i code with
    | .ret obj => .ret obj
    | .next st1 => qsRun P qs rest (i + 1) st1

/-- The locals of `querystring.parse` before the loop. -/
def qsInit : QSState := ⟨[], 1000, 0, 0, [], [], false, false, 0⟩

/-- A code unit that stands for itself in a value and in a request target:
none of `&`, `+`, `%`, `?`. -/
def isPlainCode (c : Nat) : Bool := c != 38 && c != 43 && c != 37 && c != 63

/-- The object of a loop outcome. -/
def QSLoop.obj : QSLoop → JSObject
  | .ret obj => obj
  | .next st => st.obj

/-- A header of the length of a base64 digest (44) that is not base64: `!!...!`. -/
def malformedHeader : JSString := List.replicate 44 33

/-- A request target whose signature has the length of a hex digest (64) and is
not hexadecimal: `/sync?a=1&signature=zz...z`. -/
def malformedUrl : JSString := js "/sync?a=1&signature=" ++ List.replicate 64 122

/-- The hex digest of `tags=a,b` under the secret `shhh` on the toy platform. -/
def tagsSignature : JSString := queryDigest toyPlatform (js "shhh") (js "tags=a,b")

/-- A signature of 64 hexadecimal digits `1`. -/
def sampleSignature : JSString := List.replicate 64 49

/-- The request target `/sync?a=1&b=2&signature=11...1`. -/
def sampleUrl : JSString := js "/sync?a=1&b=2&signature=" ++ sampleSignature

/-- A run of `n` separators `&`. -/
def ampersands (n : Nat) : JSString := List.replicate n 38

/-- The signed target `/sync?a=1&b=2&signature=11...1` followed by 998 `&` and
the parameter `admin=1`. -/
def paddedUrl : JSString := sampleUrl ++ ampersands 998 ++ js "admin=1"

/-- The target `/sync?`, 1000 `&`, then `signature=` and the hex digest of the
empty message under the secret `shhh` on the toy platform. -/
def buriedUrl : JSString :=
  js "/sync?" ++ ampersands 1000 ++ js "signature=" ++ queryDigest toyPlatform (js "shhh") []

/-- Single-bit mutation of a string: bit `k` of the code unit at index `i` is
flipped (the string is unchanged when `i` is out of range). -/
def flipBit : JSString → Nat → Nat → JSString
  | [], _, _ => []
  | c :: cs, 0, k => (c ^^^ 2 ^ k) :: cs
  | c :: cs, i + 1, k => c :: flipBit cs i k

/-! ## Encodings: the digests are ASCII, and `Buffer.from` is faithful on ASCII -/

/-- Every code unit is below 128. -/
def IsAscii (s : List Nat) : Prop := ∀ c ∈ s, c < 128

theorem base64Char_lt (n : Nat) : base64Char n < 128 := by
  unfold base64Char
  simp only
  split_ifs <;> omega

theorem hexDigit_lt (n : Nat) : hexDigit n < 128 := by
  unfold hexDigit
  simp only
  split_ifs <;> omega

theorem isAscii_base64Encode (l : Bytes) : IsAscii (base64Encode l) := by
  induction l using base64Encode.induct with
  | case1 => intro c hc; simp [base64Encode] at hc
  | case2 a =>
    intro c hc
    simp only [base64Encode, List.mem_cons, List.mem_singleton, List.not_mem_nil, or_false] at hc
    rcases hc with h | h | h | h <;> subst h <;> first | exact base64Char_lt _ | decide
  | case3 a b =>
    intro c hc
    simp only [base64Encode, List.mem_cons, List.mem_singleton, List.not_mem_nil, or_false] at hc
    rcases hc with h | h | h | h <;> subst h <;> first | exact base64Char_lt _ | decide
  | case4 a b c rest ih =>
    intro x hx
    simp only [base64Encode, List.mem_cons] at hx
    rcases hx with h | h | h | h | h
    · subst h; exact base64Char_lt _
    · subst h; exact base64Char_lt _
    · subst h; exact base64Char_lt _
    · subst h; exact base64Char_lt _
    · exact ih x h

theorem isAscii_hexEncode (l : Bytes) : IsAscii (hexEncode l) := by
  induction l with
  | nil => intro c hc; simp [hexEncode] at hc
  | cons b rest ih =>
    intro x hx
    simp only [hexEncode, List.mem_cons] at hx
    rcases hx with h | h | h
    · subst h; exact hexDigit_lt _
    · subst h; exact hexDigit_lt _
    · exact ih x h

theorem base64Encode_ne_nil {l : Bytes} (h : l ≠ []) : base64Encode l ≠ [] := by
  match l, h with
  | [_], _ => simp [base64Encode]
  | [_, _], _ => simp [base64Encode]
  | _ :: _ :: _ :: _, _ => simp [base64Encode]

theorem utf8Unit_ascii {c : Nat} (h : c < 128) : utf8Unit c = [c] := by
  simp [utf8Unit, h]

theorem utf8Unit_head_ge {c : Nat} (h : ¬ c < 128) : ∃ x t, utf8Unit c = x :: t ∧ 128 ≤ x := by
  unfold utf8Unit
  split_ifs
  · exact ⟨_, _, rfl, by omega⟩
  · exact ⟨_, _, rfl, by omega⟩
  · exact ⟨_, _, rfl, by omega⟩

/-- Only an ASCII string has ASCII bytes, and then the bytes are its code units. -/
theorem eq_of_bufferFrom_eq_ascii (s : JSString) :
    ∀ d : Bytes, IsAscii d → bufferFrom s = d → s = d := by
  induction s using bufferFrom.induct with
  | case1 => intro d _ h; simpa [bufferFrom] using h
  | case2 c =>
    intro d hd h
    simp only [bufferFrom] at h
    by_cases hc : c < 128
    · rw [utf8Unit_ascii hc] at h; exact h
    · obtain ⟨x, t, hx, hge⟩ := utf8Unit_head_ge hc
      rw [hx] at h
      have := hd x (by rw [← h]; simp)
      omega
  | case3 c e rest hp _ =>
    intro d hd h
    rw [bufferFrom, if_pos hp] at h
    have := hd (0xF0 + (0x10000 + (c - 0xD800) * 1024 + (e - 0xDC00)) / 262144)
      (by rw [← h]; simp [utf8Pair])
    omega
  | case4 c e rest hp ih =>
    intro d hd h
    rw [bufferFrom, if_neg hp] at h
    by_cases hc : c < 128
    · rw [utf8Unit_ascii hc] at h
      cases d with
      | nil => simp at h
      | cons x d1 =>
        simp only [List.singleton_append, List.cons.injEq] at h
        have hd1 : IsAscii d1 := fun y hy => hd y (List.mem_cons_of_mem _ hy)
        rw [h.1, ih d1 hd1 h.2]
    · obtain ⟨x, t, hx, hge⟩ := utf8Unit_head_ge hc
      rw [hx] at h
      have := hd x (by rw [← h]; simp)
      omega

theorem bufferFrom_ascii (d : JSString) (hd : IsAscii d) : bufferFrom d = d := by
  induction d using bufferFrom.induct with
  | case1 => rfl
  | case2 c => simp [bufferFrom, utf8Unit_ascii (hd c (by simp))]
  | case3 c e rest hp _ =>
    have := hd c (by simp)
    simp [isHighSurrogate] at hp
    omega
  | case4 c e rest hp ih =>
    rw [bufferFrom, if_neg hp, utf8Unit_ascii (hd c (by simp)),
      ih (fun y hy => hd y (List.mem_cons_of_mem _ hy))]
    rfl

/-- The comparison of proxy.js line 51 and server.js line 22, with its `catch`:
against an ASCII digest it accepts the presented string exactly when the two
strings are the same. -/
theorem tryCatch_timingSafeEqual (d sig : JSString) (hd : IsAscii d) :
    tryCatch (timingSafeEqual (bufferFrom d) (bufferFrom sig)) false = .ok (decide (sig = d)) := by
  rw [bufferFrom_ascii d hd]
  unfold timingSafeEqual
  by_cases hlen : d.length ≠ (bufferFrom sig).length
  · rw [if_pos hlen]
    have : sig ≠ d := by
      intro h
      apply hlen
      rw [h, bufferFrom_ascii d hd]
    simp [tryCatch, this]
  · rw [if_neg hlen]
    by_cases h : sig = d
    · subst h
      simp [tryCatch, bufferFrom_ascii sig hd]
    · have : d ≠ bufferFrom sig := fun e => h (eq_of_bufferFrom_eq_ascii sig d hd e.symm)
      simp [tryCatch, this, h]

theorem flipBit_ne (s : JSString) (i k : Nat) (h : i < s.length) : flipBit s i k ≠ s := by
  induction s generalizing i with
  | nil => simp at h
  | cons c cs ih =>
    cases i with
    | zero =>
      intro e
      simp only [flipBit, List.cons.injEq, and_true] at e
      have h0 : c ^^^ 2 ^ k = c ^^^ 0 := by simpa using e
      have := Nat.xor_right_injective h0
      exact absurd this (by positivity)
    | succ j =>
      intro e
      simp only [flipBit, List.cons.injEq, true_and] at e
      exact ih j (by simpa using h) e

/-- What `verifyHmac` computes: `false` for a falsy header or secret or an absent
body, else whether the header is the base64 digest. -/
theorem verifyHmac_eq (P : Platform) (rawBody : Option Bytes) (hmacHeader secret : Option JSString) :
    verifyHmac P rawBody hmacHeader secret =
      .ok (truthy hmacHeader && truthy secret &&
        match rawBody with
        | none => false
        | some b => decide (hmacHeader.getD [] =
            base64Encode (P.hmacSha256 (bufferFrom (secret.getD [])) b))) := by
  unfold verifyHmac
  by_cases h1 : truthy hmacHeader = true <;> by_cases h2 : truthy secret = true <;>
    simp [h1, h2]
  cases rawBody with
  | none => simp [bodyDigest, tryCatch, bind, Except.bind]
  | some b =>
    simp only [bodyDigest, bind, Except.bind]
    exact tryCatch_timingSafeEqual _ _ (isAscii_base64Encode _)

theorem isEmpty_eq_false_of_ne {s : JSString} (h : s ≠ []) : s.isEmpty = false := by
  cases s <;> simp_all

/-- What `verifyAppProxySignature` computes: `false` for a falsy secret or a
`signature` that is not a non-empty string, else whether the signature is the
hex digest of the canonical message of the other parameters. -/
theorem verifyAppProxySignature_eq (P : Platform) (originalUrl : JSString)
    (secret : Option JSString) :
    verifyAppProxySignature P originalUrl secret =
      .ok (truthy secret &&
        match objGet (querystringParse P (rawQuery originalUrl)) signatureKey with
        | .str sig => !sig.isEmpty && decide (sig = queryDigest P (secret.getD [])
            (canonicalMessage (objDelete (querystringParse P (rawQuery originalUrl)) signatureKey)))
        | _ => false) := by
  unfold verifyAppProxySignature
  by_cases h : truthy secret = true
  · simp only [h, Bool.not_true, Bool.false_eq_true, ↓reduceIte, Bool.true_and]
    split
    · rename_i sig hsig
      by_cases he : sig.isEmpty = true
      · simp [he]
      · simp only [he, Bool.false_eq_true, ↓reduceIte, Bool.not_false, Bool.true_and]
        exact tryCatch_timingSafeEqual _ _ (isAscii_hexEncode _)
    · rfl
  · simp [h]

/-- C1: for every non-empty secret `s` and every raw body `b`, `verifyHmac`
called with the header `base64(HMAC-SHA256(s, b))` returns `true` (the keyed
hash being one of 32-byte digests). -/
theorem verifyHmac_accepts_correct_signature (P : Platform)
    (hlen : ∀ key msg, (P.hmacSha256 key msg).length = 32)
    (s : JSString) (b : Bytes) (hs : s ≠ []) :
    verifyHmac P (some b) (some (base64Encode (P.hmacSha256 (bufferFrom s) b))) (some s)
      = .ok true := by
  have hd : base64Encode (P.hmacSha256 (bufferFrom s) b) ≠ [] := by
    apply base64Encode_ne_nil
    intro h
    have := hlen (bufferFrom s) b
    rw [h] at this
    simp at this
  rw [verifyHmac_eq]
  simp [truthy, hs, hd]

theorem verifyHmac_accepts_correct_signature_witness :
    verifyHmac toyPlatform (some sampleBody)
      (some (base64Encode (toyPlatform.hmacSha256 (bufferFrom (js "topsecret")) sampleBody)))
      (some (js "topsecret")) = .ok true :=
  verifyHmac_accepts_correct_signature toyPlatform (fun _ _ => List.length_replicate _ _)
    (js "topsecret") sampleBody (by decide)

/-- C2: for every secret `s`, every raw body `b` and every header obtained from
the correct signature `base64(HMAC-SHA256(s, b))` by flipping one bit (bit `k`
of the code unit at index `i`), `verifyHmac` returns `false`. -/
theorem verifyHmac_rejects_bit_flip (P : Platform) (s : JSString) (b : Bytes) (i k : Nat)
    (hi : i < (base64Encode (P.hmacSha256 (bufferFrom s) b)).length) :
    verifyHmac P (some b) (some (flipBit (base64Encode (P.hmacSha256 (bufferFrom s) b)) i k))
      (some s) = .ok false := by
  rw [verifyHmac_eq]
  simp [flipBit_ne _ i k hi]

theorem verifyHmac_rejects_bit_flip_witness :
    verifyHmac toyPlatform (some sampleBody)
      (some (flipBit (base64Encode (toyPlatform.hmacSha256 (bufferFrom (js "topsecret"))
        sampleBody)) 43 0))
      (some (js "topsecret")) = .ok false :=
  verifyHmac_rejects_bit_flip toyPlatform (js "topsecret") sampleBody 43 0 (by decide)

/-- On the parsed query (its first 1000 pairs): for a non-empty secret and a
request whose parsed query holds `signature` as one non-empty string,
`verifyAppProxySignature` returns `true` exactly when that string is the hex
digest of the canonical message of the other parsed parameters (equivalently:
same byte length and same bytes); a signature of another length gives `false`. -/
theorem verifyAppProxySignature_true_iff (P : Platform) (originalUrl secret sig : JSString)
    (hs : secret ≠ [])
    (hsig : objGet (querystringParse P (rawQuery originalUrl)) signatureKey = .str sig)
    (hne : sig ≠ []) :
    (verifyAppProxySignature P originalUrl (some secret) = .ok true ↔
      sig = queryDigest P secret
        (canonicalMessage (objDelete (querystringParse P (rawQuery originalUrl)) signatureKey))) ∧
    (verifyAppProxySignature P originalUrl (some secret) = .ok true ↔
      (bufferFrom sig).length = (bufferFrom (queryDigest P secret
        (canonicalMessage (objDelete (querystringParse P (rawQuery originalUrl))
          signatureKey)))).length ∧
      bufferFrom sig = bufferFrom (queryDigest P secret
        (canonicalMessage (objDelete (querystringParse P (rawQuery originalUrl)) signatureKey)))) ∧
    (sig.length ≠ (queryDigest P secret
        (canonicalMessage (objDelete (querystringParse P (rawQuery originalUrl))
          signatureKey))).length →
      verifyAppProxySignature P originalUrl (some secret) = .ok false) ∧
    ((bufferFrom sig).length ≠ (bufferFrom (queryDigest P secret
        (canonicalMessage (objDelete (querystringParse P (rawQuery originalUrl))
          signatureKey)))).length →
      verifyAppProxySignature P originalUrl (some secret) = .ok false) := by
  have hd : IsAscii (queryDigest P secret
      (canonicalMessage (objDelete (querystringParse P (rawQuery originalUrl)) signatureKey))) :=
    isAscii_hexEncode _
  have key : verifyAppProxySignature P originalUrl (some secret) = .ok (decide (sig = queryDigest
      P secret
      (canonicalMessage (objDelete (querystringParse P (rawQuery originalUrl)) signatureKey)))) := by
    rw [verifyAppProxySignature_eq, hsig]
    simp [truthy, isEmpty_eq_false_of_ne hs, isEmpty_eq_false_of_ne hne]
  rw [key]
  generalize queryDigest P secret
    (canonicalMessage (objDelete (querystringParse P (rawQuery originalUrl)) signatureKey)) = d
    at hd
  refine ⟨by simp, ?_, ?_, ?_⟩
  · constructor
    · intro h
      have h1 : sig = d := by simpa using h
      rw [← h1]
      exact ⟨rfl, rfl⟩
    · rintro ⟨_, h⟩
      have := eq_of_bufferFrom_eq_ascii sig d hd (by rw [h, bufferFrom_ascii _ hd])
      simp [this]
  · intro h
    have : sig ≠ d := fun e => h (congrArg List.length e)
    simp [this]
  · intro h
    have : sig ≠ d := fun e => h (congrArg (fun x => (bufferFrom x).length) e)
    simp [this]

theorem verifyAppProxySignature_true_iff_witness :
    verifyAppProxySignature toyPlatform sampleUrl (some (js "shhh")) = .ok true ∧
    verifyAppProxySignature toyPlatform (js "/sync?a=1&b=2&signature=11") (some (js "shhh"))
      = .ok false ∧
    verifyAppProxySignature toyPlatform (js "/sync?a=1&b=2&signature=11") (some (js "shhh"))
      = .ok false :=
  ⟨(verifyAppProxySignature_true_iff toyPlatform sampleUrl (js "shhh") sampleSignature
      (by decide) (by decide) (by decide)).1.2 (by decide),
   (verifyAppProxySignature_true_iff toyPlatform (js "/sync?a=1&b=2&signature=11") (js "shhh")
      (js "11") (by decide) (by decide) (by decide)).2.2.1 (by decide),
   (verifyAppProxySignature_true_iff toyPlatform (js "/sync?a=1&b=2&signature=11") (js "shhh")
      (js "11") (by decide) (by decide) (by decide)).2.2.2 (by decide)⟩

/-- C4: both verifiers fail closed.  `verifyHmac` returns `false` for every raw
body when the secret is absent or empty or the header is absent or empty;
`verifyAppProxySignature` returns `false` when the secret is absent or empty,
and when the parsed `signature` is absent, empty, or an array (the parameter was
given more than once). -/
theorem verifiers_fail_closed (P : Platform) :
    (∀ rawBody header, verifyHmac P rawBody header none = .ok false ∧
      verifyHmac P rawBody header (some []) = .ok false) ∧
    (∀ rawBody secret, verifyHmac P rawBody none secret = .ok false ∧
      verifyHmac P rawBody (some []) secret = .ok false) ∧
    (∀ originalUrl, verifyAppProxySignature P originalUrl none = .ok false ∧
      verifyAppProxySignature P originalUrl (some []) = .ok false) ∧
    (∀ originalUrl secret,
      (objGet (querystringParse P (rawQuery originalUrl)) signatureKey = .undefined ∨
        objGet (querystringParse P (rawQuery originalUrl)) signatureKey = .str [] ∨
        ∃ xs, objGet (querystringParse P (rawQuery originalUrl)) signatureKey = .arr xs) →
      verifyAppProxySignature P originalUrl secret = .ok false) := by
  refine ⟨?_, ?_, ?_, ?_⟩
  · intro rawBody header
    constructor <;> rw [verifyHmac_eq] <;> simp [truthy]
  · intro rawBody secret
    constructor <;> rw [verifyHmac_eq] <;> simp [truthy]
  · intro originalUrl
    constructor <;> rw [verifyAppProxySignature_eq] <;> simp [truthy]
  · intro originalUrl secret h
    rw [verifyAppProxySignature_eq]
    rcases h with h | h | ⟨xs, h⟩ <;> rw [h] <;> simp

theorem verifiers_fail_closed_witness :
    verifyAppProxySignature toyPlatform (js "/sync?a=1&b=2") (some (js "shhh")) = .ok false ∧
    verifyAppProxySignature toyPlatform (js "/sync?a=1&signature=") (some (js "shhh"))
      = .ok false ∧
    verifyAppProxySignature toyPlatform (js "/sync?signature=ab&a=1&signature=cd")
      (some (js "shhh")) = .ok false :=
  ⟨(verifiers_fail_closed toyPlatform).2.2.2 _ _ (Or.inl (by decide)),
   (verifiers_fail_closed toyPlatform).2.2.2 _ _ (Or.inr (Or.inl (by decide))),
   (verifiers_fail_closed toyPlatform).2.2.2 _ _ (Or.inr (Or.inr ⟨[js "ab", js "cd"], by decide⟩))⟩

/-- C5: neither verifier throws.  For every raw body (absent or not), header and
secret `verifyHmac` returns a boolean, and for every request target and secret
so does `verifyAppProxySignature`.  A presented signature that is not the
computed digest never passes the comparison and the verifier returns `false`;
when its byte length differs from the digest's, `timingSafeEqual` throws a
`RangeError`, which is caught, and the verifier returns `false`. -/
theorem verifiers_never_throw (P : Platform) (originalUrl : JSString) :
    (∀ rawBody header secret, ∃ r, verifyHmac P rawBody header secret = .ok r) ∧
    (∀ secret, ∃ r, verifyAppProxySignature P originalUrl secret = .ok r) ∧
    (∀ (b : Bytes) (h s : JSString), h ≠ base64Encode (P.hmacSha256 (bufferFrom s) b) →
      timingSafeEqual (bufferFrom (base64Encode (P.hmacSha256 (bufferFrom s) b))) (bufferFrom h)
        ≠ .ok true ∧
      verifyHmac P (some b) (some h) (some s) = .ok false) ∧
    (∀ (b : Bytes) (h s : JSString),
      (bufferFrom h).length ≠
        (bufferFrom (base64Encode (P.hmacSha256 (bufferFrom s) b))).length →
      timingSafeEqual (bufferFrom (base64Encode (P.hmacSha256 (bufferFrom s) b))) (bufferFrom h)
        = .error .RangeError ∧
      verifyHmac P (some b) (some h) (some s) = .ok false) ∧
    (∀ sig s : JSString,
      objGet (querystringParse P (rawQuery originalUrl)) signatureKey = .str sig →
      sig ≠ queryDigest P s
        (canonicalMessage (objDelete (querystringParse P (rawQuery originalUrl)) signatureKey)) →
      timingSafeEqual (bufferFrom (queryDigest P s
        (canonicalMessage (objDelete (querystringParse P (rawQuery originalUrl)) signatureKey))))
        (bufferFrom sig) ≠ .ok true ∧
      verifyAppProxySignature P originalUrl (some s) = .ok false) ∧
    (∀ sig s : JSString,
      objGet (querystringParse P (rawQuery originalUrl)) signatureKey = .str sig →
      (bufferFrom sig).length ≠ (bufferFrom (queryDigest P s
        (canonicalMessage (objDelete (querystringParse P (rawQuery originalUrl))
          signatureKey)))).length →
      timingSafeEqual (bufferFrom (queryDigest P s
        (canonicalMessage (objDelete (querystringParse P (rawQuery originalUrl)) signatureKey))))
        (bufferFrom sig) = .error .RangeError ∧
      verifyAppProxySignature P originalUrl (some s) = .ok false) := by
  have cmp : ∀ d sig : JSString, IsAscii d → sig ≠ d →
      timingSafeEqual (bufferFrom d) (bufferFrom sig) ≠ .ok true := by
    intro d sig hd hne h
    have := tryCatch_timingSafeEqual d sig hd
    rw [h] at this
    simp [tryCatch, hne] at this
  have thr : ∀ a b : Bytes, b.length ≠ a.length →
      timingSafeEqual a b = .error .RangeError := by
    intro a b h
    simp [timingSafeEqual, Ne.symm h]
  refine ⟨fun _ _ _ => ⟨_, verifyHmac_eq _ _ _ _⟩,
    fun _ => ⟨_, verifyAppProxySignature_eq _ _ _⟩, ?_, ?_, ?_, ?_⟩
  · intro b h s hne
    refine ⟨cmp _ _ (isAscii_base64Encode _) hne, ?_⟩
    rw [verifyHmac_eq]
    simp [hne]
  · intro b h s hlen
    have hne : h ≠ base64Encode (P.hmacSha256 (bufferFrom s) b) :=
      fun e => hlen (by rw [e])
    refine ⟨thr _ _ hlen, ?_⟩
    rw [verifyHmac_eq]
    simp [hne]
  · intro sig s hsig hne
    refine ⟨cmp _ _ (isAscii_hexEncode _) hne, ?_⟩
    rw [verifyAppProxySignature_eq, hsig]
    simp [hne]
  · intro sig s hsig hlen
    have hne : sig ≠ queryDigest P s
        (canonicalMessage (objDelete (querystringParse P (rawQuery originalUrl))
          signatureKey)) := fun e => hlen (by rw [← e])
    refine ⟨thr _ _ hlen, ?_⟩
    rw [verifyAppProxySignature_eq, hsig]
    simp [hne]

theorem verifiers_never_throw_witness :
    (timingSafeEqual (bufferFrom (base64Encode (toyPlatform.hmacSha256
        (bufferFrom (js "topsecret")) sampleBody))) (bufferFrom (js "not base64!"))
        = .error .RangeError ∧
      verifyHmac toyPlatform (some sampleBody) (some (js "not base64!")) (some (js "topsecret"))
        = .ok false) ∧
    (timingSafeEqual (bufferFrom (queryDigest toyPlatform (js "shhh")
        (canonicalMessage (objDelete (querystringParse toyPlatform
          (rawQuery (js "/sync?a=1&signature=zz"))) signatureKey))))
        (bufferFrom (js "zz")) = .error .RangeError ∧
      verifyAppProxySignature toyPlatform (js "/sync?a=1&signature=zz") (some (js "shhh"))
        = .ok false) ∧
    verifyHmac toyPlatform (some sampleBody) (some malformedHeader) (some (js "topsecret"))
      = .ok false ∧
    verifyAppProxySignature toyPlatform malformedUrl (some (js "shhh")) = .ok false :=
  ⟨(verifiers_never_throw toyPlatform []).2.2.2.1 sampleBody (js "not base64!") (js "topsecret")
      (by decide),
   (verifiers_never_throw toyPlatform (js "/sync?a=1&signature=zz")).2.2.2.2.2 (js "zz")
      (js "shhh") (by decide) (by decide),
   ((verifiers_never_throw toyPlatform []).2.2.1 sampleBody malformedHeader (js "topsecret")
      (by decide)).2,
   ((verifiers_never_throw toyPlatform malformedUrl).2.2.2.2.1 (List.replicate 64 122)
      (js "shhh") (by decide) (by decide)).2⟩

/-! ## The default sort order -/

theorem jsStrLt_iff_lex (a b : JSString) : jsStrLt a b = true ↔ List.Lex (· < ·) a b := by
  induction a generalizing b with
  | nil =>
    cases b with
    | nil => simp [jsStrLt, List.Lex.not_nil_right]
    | cons y bs => simp [jsStrLt, List.Lex.nil]
  | cons x as ih =>
    cases b with
    | nil => simp [jsStrLt, List.Lex.not_nil_right]
    | cons y bs =>
      unfold jsStrLt
      by_cases h1 : x < y
      · simp [h1, List.Lex.rel h1]
      · by_cases h2 : y < x
        · simp only [h1, h2, ↓reduceIte, Bool.false_eq_true, false_iff]
          intro h
          cases h with
          | cons h => omega
          | rel h => omega
        · have e : x = y := by omega
          subst e
          simp only [h1, ↓reduceIte]
          rw [ih bs, List.Lex.cons_iff]

theorem jsLe_iff_lexLe (a b : JSString) : JSLe a b ↔ LexLe a b := by
  unfold JSLe LexLe
  rw [← Bool.not_eq_true, jsStrLt_iff_lex]
  constructor
  · intro h
    rcases trichotomous_of (List.Lex (· < · : Nat → Nat → Prop)) a b with h1 | h1 | h1
    · exact Or.inr h1
    · exact Or.inl h1
    · exact absurd h1 h
  · rintro (h | h)
    · subst h
      exact irrefl_of (List.Lex (· < · : Nat → Nat → Prop)) a
    · exact asymm_of (List.Lex (· < · : Nat → Nat → Prop)) h

theorem lexLe_total (a b : JSString) : LexLe a b ∨ LexLe b a := by
  unfold LexLe
  rcases trichotomous_of (List.Lex (· < · : Nat → Nat → Prop)) a b with h | h | h
  · exact Or.inl (Or.inr h)
  · exact Or.inl (Or.inl h)
  · exact Or.inr (Or.inr h)

theorem lexLe_trans {a b c : JSString} (h1 : LexLe a b) (h2 : LexLe b c) : LexLe a c := by
  unfold LexLe at *
  rcases h1 with h1 | h1
  · subst h1; exact h2
  · rcases h2 with h2 | h2
    · subst h2; exact Or.inr h1
    · exact Or.inr (trans_of (List.Lex (· < · : Nat → Nat → Prop)) h1 h2)

theorem lexLe_antisymm {a b : JSString} (h1 : LexLe a b) (h2 : LexLe b a) : a = b := by
  unfold LexLe at *
  rcases h1 with h1 | h1
  · exact h1
  · rcases h2 with h2 | h2
    · exact h2.symm
    · exact absurd h2 (asymm_of (List.Lex (· < · : Nat → Nat → Prop)) h1)

/-- The sorted array is a rearrangement of the array. -/
theorem jsSort_perm (xs : List JSString) : (jsSort xs).Perm xs :=
  List.perm_insertionSort JSLe xs

/-- The sorted array is in lexicographic order. -/
theorem jsSort_sorted (xs : List JSString) : (jsSort xs).Sorted LexLe := by
  haveI : IsTotal JSString JSLe :=
    ⟨fun a b => by rw [jsLe_iff_lexLe, jsLe_iff_lexLe]; exact lexLe_total a b⟩
  haveI : IsTrans JSString JSLe :=
    ⟨fun a b c h1 h2 => by
      rw [jsLe_iff_lexLe] at *
      exact lexLe_trans h1 h2⟩
  have h : (jsSort xs).Sorted JSLe := List.sorted_insertionSort JSLe xs
  exact List.Pairwise.imp (fun {a b} hab => (jsLe_iff_lexLe a b).1 hab) h

/-- A sorted rearrangement is unique. -/
theorem sorted_perm_unique {l1 l2 : List JSString} (hp : l1.Perm l2)
    (h1 : l1.Sorted LexLe) (h2 : l2.Sorted LexLe) : l1 = l2 := by
  haveI : IsAntisymm JSString LexLe := ⟨fun _ _ h1 h2 => lexLe_antisymm h1 h2⟩
  exact List.eq_of_perm_of_sorted hp h1 h2

theorem jsSort_eq_of_perm {l1 l2 : List JSString} (hp : l1.Perm l2) : jsSort l1 = jsSort l2 :=
  sorted_perm_unique (((jsSort_perm l1).trans hp).trans (jsSort_perm l2).symm)
    (jsSort_sorted l1) (jsSort_sorted l2)

/-! ## Objects with one entry per key -/

theorem objGet_of_not_mem {obj : JSObject} {key : JSString}
    (h : key ∉ obj.map Prod.fst) : objGet obj key = .undefined := by
  induction obj with
  | nil => rfl
  | cons e rest ih =>
    obtain ⟨k, v⟩ := e
    simp only [List.map_cons, List.mem_cons, not_or] at h
    simp [objGet, Ne.symm h.1, ih h.2]

theorem objGet_of_mem {obj : JSObject} {key : JSString} {v : JSValue}
    (hn : NodupKeys obj) (h : (key, v) ∈ obj) : objGet obj key = v := by
  induction obj with
  | nil => simp at h
  | cons e rest ih =>
    obtain ⟨k, w⟩ := e
    simp only [NodupKeys, List.map_cons, List.nodup_cons] at hn
    simp only [List.mem_cons, Prod.mk.injEq] at h
    rcases h with ⟨hk, hv⟩ | h
    · simp [objGet, hk, hv]
    · have hne : k ≠ key := by
        intro e
        apply hn.1
        rw [e]
        exact List.mem_map_of_mem Prod.fst h
      simp [objGet, hne, ih hn.2 h]

theorem nodupKeys_perm {p1 p2 : JSObject} (hp : p1.Perm p2) (hn : NodupKeys p1) :
    NodupKeys p2 :=
  ((hp.map Prod.fst).nodup_iff).1 hn

theorem specJoinComma_eq (xs : List JSString) : specJoinComma xs = [44].intercalate xs := by
  induction xs using specJoinComma.induct with
  | case1 => rfl
  | case2 x => simp [specJoinComma, List.intercalate, List.intersperse]
  | case3 x y rest ih =>
    rw [specJoinComma, ih]
    simp [List.intercalate, List.intersperse]

theorem specValueText_eq (v : JSValue) : specValueText v = valueString v := by
  cases v <;> simp [specValueText, valueString, specJoinComma_eq]

/-- The components the code builds from the keys are the components of the
entries. -/
theorem components_eq (params : JSObject) (hn : NodupKeys params) :
    (objectKeys params).map (component params) = params.map specComponent := by
  unfold objectKeys
  rw [List.map_map]
  apply List.map_congr_left
  rintro ⟨k, v⟩ hmem
  simp only [Function.comp_apply, component, specComponent, objGet_of_mem hn hmem,
    specValueText_eq]
  rfl

theorem nodupKeys_objDelete {obj : JSObject} (hn : NodupKeys obj) (key : JSString) :
    NodupKeys (objDelete obj key) :=
  List.Nodup.sublist (List.Sublist.map Prod.fst (List.filter_sublist obj)) hn

theorem canonicalMessage_spec (params : JSObject) (hn : NodupKeys params) :
    IsCanonicalMessage params (canonicalMessage params) := by
  refine ⟨jsSort (params.map specComponent), jsSort_perm _, jsSort_sorted _, ?_⟩
  rw [canonicalMessage, components_eq params hn]

theorem canonicalMessage_unique (params : JSObject) (hn : NodupKeys params) (msg : JSString)
    (h : IsCanonicalMessage params msg) : msg = canonicalMessage params := by
  obtain ⟨sorted, hp, hs, rfl⟩ := h
  rw [canonicalMessage, components_eq params hn,
    sorted_perm_unique (hp.trans (jsSort_perm _).symm) hs (jsSort_sorted _)]

/-! ## The parser: objects it builds, and prefixes of the query -/

theorem keys_objSet (obj : JSObject) (key : JSString) (v : JSValue) :
    (objSet obj key v).map Prod.fst =
      if key ∈ obj.map Prod.fst then obj.map Prod.fst else obj.map Prod.fst ++ [key] := by
  induction obj with
  | nil => simp [objSet]
  | cons e rest ih =>
    obtain ⟨k, w⟩ := e
    by_cases h : k = key
    · simp [objSet, h]
    · have h2 : ¬ key = k := fun e => h e.symm
      simp only [objSet, h, ↓reduceIte, List.map_cons, ih, List.mem_cons, h2, false_or]
      split_ifs <;> simp

theorem nodupKeys_objSet {obj : JSObject} (hn : NodupKeys obj) (key : JSString) (v : JSValue) :
    NodupKeys (objSet obj key v) := by
  unfold NodupKeys at *
  rw [keys_objSet]
  split_ifs with h
  · exact hn
  · rw [List.nodup_append]
    exact ⟨hn, List.nodup_singleton _, by simpa using h⟩

theorem nodupKeys_addKeyValue (P : Platform) {obj : JSObject} (hn : NodupKeys obj)
    (key value : JSString) (ke ve : Bool) : NodupKeys (addKeyValue P obj key value ke ve) := by
  unfold addKeyValue
  simp only
  split
  · exact nodupKeys_objSet hn _ _
  · exact nodupKeys_objSet hn _ _
  · exact nodupKeys_objSet hn _ _
  · exact hn

theorem nodupKeys_qsEndPair (P : Platform) {st : QSState} (hn : NodupKeys st.obj) (i : Nat)
    (key value : JSString) : NodupKeys (qsEndPair P st i key value).obj := by
  unfold qsEndPair
  simp only
  split_ifs <;> exact nodupKeys_addKeyValue P hn _ _ _ _

theorem obj_qsValueChar (qs : JSString) (st : QSState) (i code : Nat) :
    (qsValueChar qs st i code).obj = st.obj := by
  unfold qsValueChar
  split_ifs <;> rfl

theorem obj_qsKeyChar (qs : JSString) (st : QSState) (i code : Nat) :
    (qsKeyChar qs st i code).obj = st.obj := by
  unfold qsKeyChar
  split_ifs <;> first | rfl | exact obj_qsValueChar qs st i code

theorem nodupKeys_qsStep (P : Platform) (qs : JSString) {st : QSState} (hn : NodupKeys st.obj)
    (i code : Nat) : NodupKeys (qsStep P qs st i code).obj := by
  unfold qsStep
  dsimp only
  split_ifs <;>
    first
    | exact nodupKeys_qsEndPair P hn _ _ _
    | (rw [obj_qsKeyChar]; exact hn)
    | (rw [obj_qsValueChar]; exact hn)
    | exact hn

theorem nodupKeys_qsFinish (P : Platform) (qs : JSString) {st : QSState}
    (hn : NodupKeys st.obj) : NodupKeys (qsFinish P qs st) := by
  unfold qsFinish
  split_ifs <;> first | exact nodupKeys_addKeyValue P hn _ _ _ _ | exact hn

theorem nodupKeys_qsLoop (P : Platform) (qs rest : JSString) (i : Nat) (st : QSState)
    (hn : NodupKeys st.obj) : NodupKeys (qsLoop P qs rest i st) := by
  induction rest generalizing i st with
  | nil => exact nodupKeys_qsFinish P qs hn
  | cons code rest ih =>
    have h := nodupKeys_qsStep P qs hn i code
    unfold qsLoop
    cases hs : qsStep P qs st i code with
    | ret obj => rw [hs] at h; exact h
    | next st1 => rw [hs] at h; exact ih _ _ h

/-- Every object `querystring.parse` returns holds each key once. -/
theorem nodupKeys_querystringParse (P : Platform) (qs : JSString) :
    NodupKeys (querystringParse P qs) := by
  unfold querystringParse
  split_ifs
  · exact List.nodup_nil
  · exact nodupKeys_qsLoop P qs qs 0 _ List.nodup_nil

theorem slice_append_left (pre suf : JSString) (a b : Nat) (h : b ≤ pre.length) :
    slice (pre ++ suf) a b = slice pre a b := by
  unfold slice
  rw [List.take_append_of_le_length h]

theorem qsStep_append (P : Platform) (pre suf : JSString) (st : QSState) (i code : Nat)
    (h : i ≤ pre.length) : qsStep P (pre ++ suf) st i code = qsStep P pre st i code := by
  simp only [qsStep, qsKeyChar, qsValueChar, slice_append_left pre suf _ i h]

theorem qsRun_append (P : Platform) (pre suf rest : JSString) (i : Nat) (st : QSState)
    (h : i + rest.length ≤ pre.length) :
    qsRun P (pre ++ suf) rest i st = qsRun P pre rest i st := by
  induction rest generalizing i st with
  | nil => rfl
  | cons code rest ih =>
    simp only [List.length_cons] at h
    unfold qsRun
    rw [qsStep_append P pre suf st i code (by omega)]
    cases qsStep P pre st i code with
    | ret obj => rfl
    | next st1 => exact ih _ _ (by omega)

theorem qsLoop_append (P : Platform) (qs r1 r2 : JSString) (i : Nat) (st : QSState) :
    qsLoop P qs (r1 ++ r2) i st =
      match qsRun P qs r1 i st with
      | .ret obj => obj
      | .next st1 => qsLoop P qs r2 (i + r1.length) st1 := by
  induction r1 generalizing i st with
  | nil => rfl
  | cons code rest ih =>
    rw [List.cons_append, qsLoop, qsRun]
    cases qsStep P qs st i code with
    | ret obj => rfl
    | next st1 =>
      have e : i + (code :: rest).length = i + 1 + rest.length := by
        rw [List.length_cons]
        omega
      rw [e]
      exact ih _ _

/-- Plain code units of a value leave the locals of the parser as they are. -/
theorem qsLoop_plain (P : Platform) (qs sig : JSString) (i : Nat) (st : QSState)
    (h1 : st.eqIdx = 1) (h2 : st.valEncoded = false) (h3 : st.encodeCheck = 0)
    (hp : ∀ c ∈ sig, isPlainCode c = true) : qsLoop P qs sig i st = qsFinish P qs st := by
  induction sig generalizing i with
  | nil => rfl
  | cons c rest ih =>
    have hc := hp c (by simp)
    simp only [isPlainCode, Bool.and_eq_true, bne_iff_ne, ne_eq] at hc
    have hstep : qsStep P qs st i c = .next st := by
      simp [qsStep, qsValueChar, h1, h2, h3, hc.1.1.1, hc.1.1.2, hc.1.2]
    rw [qsLoop, hstep]
    exact ih _ (fun x hx => hp x (List.mem_cons_of_mem _ hx))

/-- A query that ends in a plainly written value: the parser reads the text
before the value, and stores the value as it stands. -/
theorem querystringParse_append_plain (P : Platform) (pre sig : JSString) (st : QSState)
    (hrun : qsRun P pre pre 0 qsInit = .next st)
    (hpre : pre ≠ []) (h1 : st.eqIdx = 1) (h2 : st.valEncoded = false)
    (h3 : st.encodeCheck = 0) (h4 : st.lastPos = pre.length) (h5 : st.value = [])
    (hp : ∀ c ∈ sig, isPlainCode c = true) :
    querystringParse P (pre ++ sig) = addKeyValue P st.obj st.key sig st.keyEncoded false := by
  have hlen : (pre ++ sig).length ≠ 0 := by
    cases pre with
    | nil => exact absurd rfl hpre
    | cons => simp
  unfold querystringParse
  rw [if_neg hlen, qsLoop_append, qsRun_append P pre sig pre 0 _ (by simp)]
  have hrun2 : qsRun P pre pre 0 ⟨[], 1000, 0, 0, [], [], false, false, 0⟩ = .next st := hrun
  rw [hrun2]
  simp only
  rw [qsLoop_plain P _ sig _ st h1 h2 h3 hp]
  unfold qsFinish
  rw [h4, h1, h5, h2]
  by_cases hs : sig = []
  · subst hs
    simp
  · have hlt : pre.length < (pre ++ sig).length := by
      rw [List.length_append]
      have := List.length_pos.2 hs
      omega
    have hsl : slice (pre ++ sig) pre.length (pre ++ sig).length = sig := by
      unfold slice
      rw [List.take_length, List.drop_left]
    rw [if_pos hlt, if_neg (by omega), hsl]
    rfl

theorem jsSplit_of_not_mem (sep : Nat) (s : JSString) (h : sep ∉ s) : jsSplit sep s = [s] := by
  induction s with
  | nil => rfl
  | cons c cs ih =>
    simp only [List.mem_cons, not_or] at h
    simp [jsSplit, Ne.symm h.1, ih h.2]

theorem jsSplit_append (sep : Nat) (a s : JSString) (h : sep ∉ a) :
    jsSplit sep (a ++ sep :: s) = a :: jsSplit sep s := by
  induction a with
  | nil => simp [jsSplit]
  | cons c cs ih =>
    simp only [List.mem_cons, not_or] at h
    simp [jsSplit, Ne.symm h.1, ih h.2]

/-- The query of a target with one `?`. -/
theorem rawQuery_of_single (path q : JSString) (h1 : 63 ∉ path) (h2 : 63 ∉ q) :
    rawQuery (path ++ 63 :: q) = q := by
  unfold rawQuery
  rw [jsSplit_append 63 path q h1, jsSplit_of_not_mem 63 q h2]
  cases q <;> simp

theorem objGet_append_of_not_mem (obj : JSObject) (key : JSString) (v : JSValue)
    (h : key ∉ obj.map Prod.fst) : objGet (obj ++ [(key, v)]) key = v := by
  induction obj with
  | nil => simp [objGet]
  | cons e rest ih =>
    obtain ⟨k, w⟩ := e
    simp only [List.map_cons, List.mem_cons, not_or] at h
    simp [objGet, Ne.symm h.1, ih h.2]

theorem objDelete_append_of_not_mem (obj : JSObject) (key : JSString) (v : JSValue)
    (h : key ∉ obj.map Prod.fst) : objDelete (obj ++ [(key, v)]) key = obj := by
  have hself : obj.filter (fun e => decide (e.1 ≠ key)) = obj := by
    apply List.filter_eq_self.2
    intro e he
    have : e.1 ≠ key := fun heq => h (List.mem_map.2 ⟨e, he, heq⟩)
    simpa using this
  unfold objDelete
  rw [List.filter_append, hself]
  simp

theorem objSet_of_not_mem (obj : JSObject) (key : JSString) (v : JSValue)
    (h : key ∉ obj.map Prod.fst) : objSet obj key v = obj ++ [(key, v)] := by
  induction obj with
  | nil => rfl
  | cons e rest ih =>
    obtain ⟨k, w⟩ := e
    simp only [List.map_cons, List.mem_cons, not_or] at h
    simp [objSet, Ne.symm h.1, ih h.2]

/-- The verdict on a target `/sync?` + `pre` + `sig`, where `pre` ends in
`signature=` and `sig` is written plainly: whether `sig` is the digest of the
canonical message of the parameters read from `pre`. -/
theorem verify_plain_signature (P : Platform) (pre sig : JSString) (obj : JSObject) (n : Nat)
    (secret : Option JSString)
    (hrun : qsRun P pre pre 0 qsInit =
      .next ⟨obj, n, pre.length, 1, signatureKey, [], false, false, 0⟩)
    (hq : 63 ∉ pre) (hpre : pre ≠ []) (hk : signatureKey ∉ obj.map Prod.fst)
    (hp : ∀ c ∈ sig, isPlainCode c = true) :
    verifyAppProxySignature P (js "/sync" ++ 63 :: (pre ++ sig)) secret =
      .ok (truthy secret && (!sig.isEmpty &&
        decide (sig = queryDigest P (secret.getD []) (canonicalMessage obj)))) := by
  have h63 : 63 ∉ pre ++ sig := by
    intro h
    rcases List.mem_append.1 h with h | h
    · exact hq h
    · have := hp 63 h
      simp [isPlainCode] at this
  have hparse : querystringParse P (pre ++ sig) = obj ++ [(signatureKey, .str sig)] := by
    rw [querystringParse_append_plain P pre sig _ hrun hpre rfl rfl rfl rfl rfl hp]
    simp only [addKeyValue, Bool.and_false, Bool.false_eq_true, ↓reduceIte]
    rw [objGet_of_not_mem hk]
    exact objSet_of_not_mem _ _ _ hk
  rw [verifyAppProxySignature_eq, rawQuery_of_single _ _ (by decide) h63, hparse,
    objGet_append_of_not_mem _ _ _ hk, objDelete_append_of_not_mem _ _ _ hk]

/-- C10: canonicalization is not injective.  The queries `a=1&b=2` and
`a=1b%3D2` parse to different parameter sets with the same canonical message,
and so do `tags=a&tags=b` and `tags=a%2Cb`; hence, for every secret, a plainly
written `signature` value is accepted for one query of a pair exactly when it
is accepted for the other. -/
theorem canonicalization_not_injective (P : Platform) :
    (querystringParse P (js "a=1&b=2") ≠ querystringParse P (js "a=1b%3D2") ∧
      canonicalMessage (querystringParse P (js "a=1&b=2")) =
        canonicalMessage (querystringParse P (js "a=1b%3D2"))) ∧
    (querystringParse P (js "tags=a&tags=b") ≠ querystringParse P (js "tags=a%2Cb") ∧
      canonicalMessage (querystringParse P (js "tags=a&tags=b")) =
        canonicalMessage (querystringParse P (js "tags=a%2Cb"))) ∧
    (∀ (secret : Option JSString) (sig : JSString), (∀ c ∈ sig, isPlainCode c = true) →
      verifyAppProxySignature P (js "/sync?a=1&b=2&signature=" ++ sig) secret =
        verifyAppProxySignature P (js "/sync?a=1b%3D2&signature=" ++ sig) secret) ∧
    (∀ (secret : Option JSString) (sig : JSString), (∀ c ∈ sig, isPlainCode c = true) →
      verifyAppProxySignature P (js "/sync?tags=a&tags=b&signature=" ++ sig) secret =
        verifyAppProxySignature P (js "/sync?tags=a%2Cb&signature=" ++ sig) secret) := by
  have a1 : querystringParse P (js "a=1&b=2") =
      [(js "a", .str (js "1")), (js "b", .str (js "2"))] := rfl
  have a2 : querystringParse P (js "a=1b%3D2") = [(js "a", .str (js "1b=2"))] := rfl
  have t1 : querystringParse P (js "tags=a&tags=b") = [(js "tags", .arr [js "a", js "b"])] := rfl
  have t2 : querystringParse P (js "tags=a%2Cb") = [(js "tags", .str (js "a,b"))] := rfl
  refine ⟨⟨?_, ?_⟩, ⟨?_, ?_⟩, ?_, ?_⟩
  · rw [a1, a2]; decide
  · rw [a1, a2]; decide
  · rw [t1, t2]; decide
  · rw [t1, t2]; decide
  · intro secret sig hp
    have e1 : js "/sync?a=1&b=2&signature=" ++ sig =
        js "/sync" ++ 63 :: (js "a=1&b=2&signature=" ++ sig) := rfl
    have e2 : js "/sync?a=1b%3D2&signature=" ++ sig =
        js "/sync" ++ 63 :: (js "a=1b%3D2&signature=" ++ sig) := rfl
    rw [e1, e2,
      verify_plain_signature P (js "a=1&b=2&signature=") sig
        [(js "a", .str (js "1")), (js "b", .str (js "2"))] 998
        secret rfl (by decide) (by decide) (by decide) hp,
      verify_plain_signature P (js "a=1b%3D2&signature=") sig [(js "a", .str (js "1b=2"))] 999
        secret rfl (by decide) (by decide) (by decide) hp]
    have : canonicalMessage [(js "a", .str (js "1")), (js "b", .str (js "2"))] =
        canonicalMessage [(js "a", .str (js "1b=2"))] := by decide
    rw [this]
  · intro secret sig hp
    have e1 : js "/sync?tags=a&tags=b&signature=" ++ sig =
        js "/sync" ++ 63 :: (js "tags=a&tags=b&signature=" ++ sig) := rfl
    have e2 : js "/sync?tags=a%2Cb&signature=" ++ sig =
        js "/sync" ++ 63 :: (js "tags=a%2Cb&signature=" ++ sig) := rfl
    rw [e1, e2,
      verify_plain_signature P (js "tags=a&tags=b&signature=") sig
        [(js "tags", .arr [js "a", js "b"])] 998
        secret rfl (by decide) (by decide) (by decide) hp,
      verify_plain_signature P (js "tags=a%2Cb&signature=") sig
        [(js "tags", .str (js "a,b"))] 999
        secret rfl (by decide) (by decide) (by decide) hp]
    have : canonicalMessage [(js "tags", .arr [js "a", js "b"])] =
        canonicalMessage [(js "tags", .str (js "a,b"))] := by decide
    rw [this]

theorem canonicalization_not_injective_witness :
    verifyAppProxySignature toyPlatform (js "/sync?a=1&b=2&signature=" ++ sampleSignature)
      (some (js "shhh")) = .ok true ∧
    verifyAppProxySignature toyPlatform (js "/sync?a=1b%3D2&signature=" ++ sampleSignature)
      (some (js "shhh")) = .ok true ∧
    verifyAppProxySignature toyPlatform (js "/sync?tags=a&tags=b&signature=" ++ tagsSignature)
      (some (js "shhh")) = .ok true ∧
    verifyAppProxySignature toyPlatform (js "/sync?tags=a%2Cb&signature=" ++ tagsSignature)
      (some (js "shhh")) = .ok true :=
  ⟨rfl,
   ((canonicalization_not_injective toyPlatform).2.2.1 (some (js "shhh")) sampleSignature
      (by decide)).symm.trans rfl,
   rfl,
   ((canonicalization_not_injective toyPlatform).2.2.2 (some (js "shhh")) tagsSignature
      (by decide)).symm.trans rfl⟩

/-- C6: for every parsed parameter set with `signature` removed, and for every
parameter set holding each key once, the canonical message the code builds is
the concatenation, without separator, of the lexicographically sorted list of
the components `key=value`, the whole component being the sort key; it is the
only such string.  A multi-valued parameter renders its values joined by `,` in
their order (`{tags: ["a","b"]}` gives `tags=a,b`), and an undefined or null
value renders as the empty string. -/
theorem canonicalMessage_sorted_concatenation (P : Platform) (qs : JSString)
    (params : JSObject) (hn : NodupKeys params) :
    IsCanonicalMessage (objDelete (querystringParse P qs) signatureKey)
      (canonicalMessage (objDelete (querystringParse P qs) signatureKey)) ∧
    (∀ msg, IsCanonicalMessage (objDelete (querystringParse P qs) signatureKey) msg →
      msg = canonicalMessage (objDelete (querystringParse P qs) signatureKey)) ∧
    IsCanonicalMessage params (canonicalMessage params) ∧
    (∀ msg, IsCanonicalMessage params msg → msg = canonicalMessage params) ∧
    canonicalMessage [(js "tags", .arr [js "a", js "b"])] = js "tags=a,b" ∧
    (∀ key, canonicalMessage [(key, .undefined)] = key ++ js "=") ∧
    (∀ key, canonicalMessage [(key, .null)] = key ++ js "=") := by
  have hq : NodupKeys (objDelete (querystringParse P qs) signatureKey) :=
    nodupKeys_objDelete (nodupKeys_querystringParse P qs) _
  refine ⟨canonicalMessage_spec _ hq, canonicalMessage_unique _ hq,
    canonicalMessage_spec params hn, canonicalMessage_unique params hn, by decide, ?_, ?_⟩
  · intro key
    have : js "=" = [61] := by decide
    simp [canonicalMessage, objectKeys, component, objGet, jsSort, valueString, this]
  · intro key
    have : js "=" = [61] := by decide
    simp [canonicalMessage, objectKeys, component, objGet, jsSort, valueString, this]

theorem canonicalMessage_sorted_concatenation_witness :
    IsCanonicalMessage
      [(js "b", .str (js "2")), (js "tags", .arr [js "a", js "b"]), (js "a", .str (js "1"))]
      (js "a=1b=2tags=a,b") :=
  (canonicalMessage_sorted_concatenation toyPlatform (js "b=2&tags=a&tags=b&a=1&signature=00")
    [(js "b", .str (js "2")), (js "tags", .arr [js "a", js "b"]), (js "a", .str (js "1"))]
    (by decide)).2.2.1

/-- C7: canonicalization does not depend on the order of insertion: two
parameter sets holding the same entries (each key once) in any two orders get
the same canonical message, and so the same digest under every secret. -/
theorem canonicalMessage_order_independent (p1 p2 : JSObject) (hp : p1.Perm p2)
    (hn : NodupKeys p1) :
    canonicalMessage p1 = canonicalMessage p2 ∧
    ∀ (P : Platform) (secret : JSString),
      queryDigest P secret (canonicalMessage p1) = queryDigest P secret (canonicalMessage p2) := by
  have h : canonicalMessage p1 = canonicalMessage p2 := by
    unfold canonicalMessage
    rw [components_eq p1 hn, components_eq p2 (nodupKeys_perm hp hn)]
    rw [jsSort_eq_of_perm (hp.map specComponent)]
  exact ⟨h, fun P secret => by rw [h]⟩

theorem canonicalMessage_order_independent_witness :
    canonicalMessage sampleParams = canonicalMessage sampleParams.reverse ∧
    queryDigest toyPlatform (js "shhh") (canonicalMessage sampleParams) =
      queryDigest toyPlatform (js "shhh") (canonicalMessage sampleParams.reverse) :=
  ⟨(canonicalMessage_order_independent sampleParams sampleParams.reverse
      (List.reverse_perm sampleParams).symm (by decide)).1,
   (canonicalMessage_order_independent sampleParams sampleParams.reverse
      (List.reverse_perm sampleParams).symm (by decide)).2 toyPlatform (js "shhh")⟩

theorem jsSplit_tail (url : JSString) :
    (jsSplit 63 url).tail =
      if 63 ∈ url then jsSplit 63 (afterFirstQuestionMark url) else [] := by
  induction url with
  | nil => simp [jsSplit]
  | cons c cs ih =>
    by_cases h : c = 63
    · simp [jsSplit, afterFirstQuestionMark, h]
    · have h2 : ¬ 63 = c := fun e => h e.symm
      have e : (jsSplit 63 (c :: cs)).tail = (jsSplit 63 cs).tail := by
        simp only [jsSplit, h, ↓reduceIte]
        cases jsSplit 63 cs <;> rfl
      rw [e, ih]
      simp [afterFirstQuestionMark, h, h2]

theorem jsSplit_head (s : JSString) :
    (jsSplit 63 s).head? = some (s.takeWhile (· != 63)) := by
  induction s with
  | nil => rfl
  | cons c cs ih =>
    by_cases h : c = 63
    · simp [jsSplit, h]
    · simp only [jsSplit, h, ↓reduceIte]
      cases hs : jsSplit 63 cs with
      | nil => rw [hs] at ih; simp at ih
      | cons x t =>
        rw [hs] at ih
        simp only [List.head?_cons, Option.some.injEq] at ih
        simp [List.takeWhile_cons, h, ih]

theorem afterFirstQuestionMark_of_not_mem (url : JSString) (h : 63 ∉ url) :
    afterFirstQuestionMark url = [] := by
  induction url with
  | nil => rfl
  | cons c cs ih =>
    simp only [List.mem_cons, not_or] at h
    simp [afterFirstQuestionMark, Ne.symm h.1, ih h.2]

/-- What the code parses: the portion after the first `?`, up to the next `?`. -/
theorem rawQuery_eq_takeWhile (url : JSString) :
    rawQuery url = (afterFirstQuestionMark url).takeWhile (· != 63) := by
  have h1 : (jsSplit 63 url)[1]? = (jsSplit 63 url).tail.head? := by
    cases jsSplit 63 url with
    | nil => rfl
    | cons x t => cases t <;> simp
  unfold rawQuery
  rw [h1, jsSplit_tail]
  by_cases h : 63 ∈ url
  · rw [if_pos h, jsSplit_head]
    simp only
    split_ifs with he
    · exact (List.isEmpty_iff.1 he).symm
    · rfl
  · rw [if_neg h, afterFirstQuestionMark_of_not_mem url h]
    rfl

theorem verifyAppProxySignature_congr (P : Platform) (u1 u2 : JSString)
    (secret : Option JSString) (h : rawQuery u1 = rawQuery u2) :
    verifyAppProxySignature P u1 secret = verifyAppProxySignature P u2 secret := by
  rw [verifyAppProxySignature_eq, verifyAppProxySignature_eq, h]

/-- C8 fails on the code: for the request target `/sync?a=1?b=2` the query that
is parsed is `a=1`, while the portion after the first `?` is `a=1?b=2`.  What
is parsed is, for every target, the portion after the first `?` cut at the next
`?`; so whatever follows a second `?` has no part in the verdict. -/
theorem rawQuery_stops_at_second_question_mark :
    rawQuery (js "/sync?a=1?b=2") = js "a=1" ∧
    afterFirstQuestionMark (js "/sync?a=1?b=2") = js "a=1?b=2" ∧
    rawQuery (js "/sync?a=1?b=2") ≠ afterFirstQuestionMark (js "/sync?a=1?b=2") ∧
    (∀ url, rawQuery url = (afterFirstQuestionMark url).takeWhile (· != 63)) ∧
    (∀ (P : Platform) (secret : Option JSString) (extra : JSString),
      verifyAppProxySignature P (sampleUrl ++ 63 :: extra) secret =
        verifyAppProxySignature P sampleUrl secret) := by
  refine ⟨by decide, by decide, by decide, rawQuery_eq_takeWhile, ?_⟩
  intro P secret extra
  apply verifyAppProxySignature_congr
  rw [rawQuery_eq_takeWhile, rawQuery_eq_takeWhile]
  rfl

/-! ## The parser stops after 1000 pairs -/

/-- Plain code units of a value leave the locals of the parser as they are. -/
theorem qsRun_plain (P : Platform) (qs sig : JSString) (i : Nat) (st : QSState)
    (h1 : st.eqIdx = 1) (h2 : st.valEncoded = false) (h3 : st.encodeCheck = 0)
    (hp : ∀ c ∈ sig, isPlainCode c = true) : qsRun P qs sig i st = .next st := by
  induction sig generalizing i with
  | nil => rfl
  | cons c rest ih =>
    have hc := hp c (by simp)
    simp only [isPlainCode, Bool.and_eq_true, bne_iff_ne, ne_eq] at hc
    have hstep : qsStep P qs st i c = .next st := by
      simp [qsStep, qsValueChar, h1, h2, h3, hc.1.1.1, hc.1.1.2, hc.1.2]
    rw [qsRun, hstep]
    exact ih _ (fun x hx => hp x (List.mem_cons_of_mem _ hx))

/-- Empty pairs are counted: once as many `&` as pairs left have been read at
the start of a pair, the parser returns, whatever follows. -/
theorem qsLoop_ampersands (P : Platform) (qs rest : JSString) (n : Nat) :
    ∀ (i : Nat) (st : QSState), st.eqIdx = 0 → st.key = [] → st.lastPos = i →
      1 ≤ st.pairs → st.pairs ≤ n →
      qsLoop P qs (ampersands n ++ rest) i st = st.obj := by
  induction n with
  | zero => intro i st _ _ _ h1 h2; omega
  | succ n ih =>
    intro i st he hk hl h1 h2
    have e : ampersands (n + 1) ++ rest = 38 :: (ampersands n ++ rest) := by
      simp [ampersands, List.replicate_succ]
    rw [e, qsLoop]
    by_cases hp : st.pairs - 1 = 0
    · have hstep : qsStep P qs st i 38 = .ret st.obj := by
        simp [qsStep, he, hk, hl, hp]
      rw [hstep]
    · have hstep : qsStep P qs st i 38 =
          .next { st with pairs := st.pairs - 1, lastPos := i + 1, eqIdx := 0 } := by
        simp [qsStep, he, hk, hl, hp]
      rw [hstep]
      exact ih (i + 1)
        ⟨st.obj, st.pairs - 1, i + 1, 0, st.key, st.value, st.keyEncoded, st.valEncoded,
          st.encodeCheck⟩
        rfl hk rfl (Nat.le_of_lt_succ (by simp only; omega)) (by simp only; omega)

/-- After 1000 `&` nothing is read. -/
theorem querystringParse_ampersands (P : Platform) (rest : JSString) :
    querystringParse P (ampersands 1000 ++ rest) = [] := by
  unfold querystringParse
  have hlen : (ampersands 1000 ++ rest).length ≠ 0 := by
    rw [List.length_append, ampersands, List.length_replicate]
    omega
  rw [if_neg hlen]
  exact qsLoop_ampersands P _ rest 1000 0 _ rfl rfl rfl (by decide) (by decide)

theorem slice_middle (pre sig rest : JSString) :
    slice (pre ++ (sig ++ rest)) pre.length (pre.length + sig.length) = sig := by
  unfold slice
  rw [← List.append_assoc, List.take_append_of_le_length (by simp), List.take_of_length_le (by simp),
    List.drop_left]

/-- A query that goes on after a plainly written value with as many `&` as pairs
are left: the parser stores the value and returns, whatever follows. -/
theorem querystringParse_padded (P : Platform) (pre sig extra : JSString) (st : QSState)
    (n : Nat) (hrun : qsRun P pre pre 0 qsInit = .next st)
    (hpre : pre ≠ []) (h1 : st.eqIdx = 1) (h2 : st.valEncoded = false)
    (h3 : st.encodeCheck = 0) (h4 : st.lastPos = pre.length) (h5 : st.value = [])
    (hp : ∀ c ∈ sig, isPlainCode c = true) (hn : st.pairs ≤ n + 1) :
    querystringParse P (pre ++ (sig ++ (ampersands (n + 1) ++ extra))) =
      addKeyValue P st.obj st.key sig st.keyEncoded false := by
  have hlen : (pre ++ (sig ++ (ampersands (n + 1) ++ extra))).length ≠ 0 := by
    cases pre with
    | nil => exact absurd rfl hpre
    | cons => simp
  have hrun2 : qsRun P pre pre 0 ⟨[], 1000, 0, 0, [], [], false, false, 0⟩ = .next st := hrun
  unfold querystringParse
  rw [if_neg hlen, qsLoop_append, qsRun_append P pre _ pre 0 _ (by simp), hrun2]
  simp only
  rw [qsLoop_append, qsRun_plain P _ sig _ st h1 h2 h3 hp]
  simp only
  have e : ampersands (n + 1) ++ extra = 38 :: (ampersands n ++ extra) := by
    simp [ampersands, List.replicate_succ]
  rw [e, qsLoop]
  have hstep : qsStep P (pre ++ (sig ++ 38 :: (ampersands n ++ extra))) st
      (0 + pre.length + sig.length) 38 = qsEndPair P st (0 + pre.length + sig.length) st.key sig := by
    have hs := slice_middle pre sig (38 :: (ampersands n ++ extra))
    by_cases hsig : sig = []
    · subst hsig
      simp [qsStep, h1, h4, h5]
    · have hlt : pre.length < 0 + pre.length + sig.length := by
        have := List.length_pos.2 hsig
        omega
      have e0 : 0 + pre.length + sig.length = pre.length + sig.length := by omega
      simp only [qsStep, h1, h4, h5, hlt, ↓reduceIte, Nat.lt_irrefl, List.nil_append]
      rw [e0, hs]
  rw [hstep]
  unfold qsEndPair
  simp only
  by_cases hpairs : st.pairs - 1 = 0
  · rw [if_pos hpairs, h2]
  · rw [if_neg hpairs, h2]
    exact qsLoop_ampersands P _ extra n _
      ⟨addKeyValue P st.obj st.key sig st.keyEncoded false, st.pairs - 1,
        0 + pre.length + sig.length + 1, 0, [], [], false, false, 0⟩
      rfl rfl rfl (by simp only; omega) (by simp only; omega)

theorem isPlainCode_hexDigit (n : Nat) : isPlainCode (hexDigit n) = true := by
  have h16 : n % 16 < 16 := Nat.mod_lt _ (by decide)
  unfold hexDigit
  simp only
  split_ifs with h <;> simp only [isPlainCode, Bool.and_eq_true, bne_iff_ne, ne_eq] <;>
    refine ⟨⟨⟨?_, ?_⟩, ?_⟩, ?_⟩ <;> omega

theorem isPlainCode_hexEncode (mac : Bytes) : ∀ c ∈ hexEncode mac, isPlainCode c = true := by
  induction mac with
  | nil => intro c hc; simp [hexEncode] at hc
  | cons b rest ih =>
    intro c hc
    simp only [hexEncode, List.mem_cons] at hc
    rcases hc with h | h | h
    · subst h; exact isPlainCode_hexDigit _
    · subst h; exact isPlainCode_hexDigit _
    · exact ih c h

/-- The verdict on the signed target `/sync?a=1&b=2&signature=` + `sig` is not
changed by 998 `&` and any text after them. -/
theorem verify_padded (P : Platform) (secret : Option JSString) (sig extra : JSString)
    (hp : ∀ c ∈ sig, isPlainCode c = true) :
    verifyAppProxySignature P
        (js "/sync?a=1&b=2&signature=" ++ sig ++ ampersands 998 ++ extra) secret =
      verifyAppProxySignature P (js "/sync?a=1&b=2&signature=" ++ sig) secret := by
  have hpre : ∀ a ∈ js "a=1&b=2&signature=", (a != 63) = true := by decide
  have h63 : ∀ a ∈ js "a=1&b=2&signature=" ++ (sig ++ ampersands 998), (a != 63) = true := by
    intro a ha
    rcases List.mem_append.1 ha with h | h
    · exact hpre a h
    · rcases List.mem_append.1 h with h | h
      · have := hp a h
        simp only [isPlainCode, Bool.and_eq_true] at this
        exact this.2
      · rw [ampersands, List.mem_replicate] at h
        rw [h.2]
        rfl
  have e1 : js "/sync?a=1&b=2&signature=" ++ sig ++ ampersands 998 ++ extra =
      js "/sync" ++ 63 :: (js "a=1&b=2&signature=" ++ (sig ++ ampersands 998) ++ extra) := by
    simp only [List.append_assoc]
    rfl
  have e2 : js "/sync?a=1&b=2&signature=" ++ sig =
      js "/sync" ++ 63 :: (js "a=1&b=2&signature=" ++ sig) := rfl
  have a1 : afterFirstQuestionMark
      (js "/sync" ++ 63 :: (js "a=1&b=2&signature=" ++ (sig ++ ampersands 998) ++ extra)) =
      js "a=1&b=2&signature=" ++ (sig ++ ampersands 998) ++ extra := rfl
  have hq : rawQuery (js "/sync?a=1&b=2&signature=" ++ sig ++ ampersands 998 ++ extra) =
      js "a=1&b=2&signature=" ++ (sig ++ (ampersands 998 ++ extra.takeWhile (· != 63))) := by
    rw [e1, rawQuery_eq_takeWhile, a1, List.takeWhile_append_of_pos h63]
    simp only [List.append_assoc]
  have hparse1 : querystringParse P
      (js "a=1&b=2&signature=" ++ (sig ++ (ampersands 998 ++ extra.takeWhile (· != 63)))) =
      querystringParse P (js "a=1&b=2&signature=" ++ sig) := by
    rw [querystringParse_padded P (js "a=1&b=2&signature=") sig _
        ⟨[(js "a", .str (js "1")), (js "b", .str (js "2"))], 998, 18, 1, js "signature", [],
          false, false, 0⟩ 997 rfl (by decide) rfl rfl rfl rfl rfl hp (by decide),
      querystringParse_append_plain P (js "a=1&b=2&signature=") sig
        ⟨[(js "a", .str (js "1")), (js "b", .str (js "2"))], 998, 18, 1, js "signature", [],
          false, false, 0⟩ rfl (by decide) rfl rfl rfl rfl rfl hp]
  have hq2 : rawQuery (js "/sync?a=1&b=2&signature=" ++ sig) = js "a=1&b=2&signature=" ++ sig := by
    rw [e2]
    apply rawQuery_of_single _ _ (by decide)
    intro h
    rcases List.mem_append.1 h with h | h
    · revert h
      decide
    · have := hp 63 h
      simp [isPlainCode] at this
  rw [verifyAppProxySignature_eq, verifyAppProxySignature_eq, hq, hq2, hparse1]

/-- A target whose query starts with 1000 `&` is refused, whatever follows. -/
theorem verify_buried (P : Platform) (secret : Option JSString) (rest : JSString) :
    verifyAppProxySignature P (js "/sync?" ++ ampersands 1000 ++ rest) secret = .ok false := by
  have h63 : ∀ a ∈ ampersands 1000, (a != 63) = true := by
    intro a h
    rw [ampersands, List.mem_replicate] at h
    rw [h.2]
    rfl
  have e1 : js "/sync?" ++ ampersands 1000 ++ rest =
      js "/sync" ++ 63 :: (ampersands 1000 ++ rest) := by
    simp only [List.append_assoc]
    rfl
  have a1 : afterFirstQuestionMark (js "/sync" ++ 63 :: (ampersands 1000 ++ rest)) =
      ampersands 1000 ++ rest := rfl
  have hq : rawQuery (js "/sync?" ++ ampersands 1000 ++ rest) =
      ampersands 1000 ++ rest.takeWhile (· != 63) := by
    rw [e1, rawQuery_eq_takeWhile, a1, List.takeWhile_append_of_pos h63]
  rw [verifyAppProxySignature_eq, hq, querystringParse_ampersands]
  simp [objGet]

/-- C3 fails on the code past the 1000th pair of the query, empty pairs counted.
The signed target `/sync?a=1&b=2&signature=<digest of a=1b=2>` followed by 998
`&` and any further parameters gets the verdict of the signed target alone: the
further parameters are remaining parameters of the query and have no part in
the message.  And a target whose query starts with 1000 `&` is refused, also
when its one `signature` is the digest of the message of its (no) other
parameters.  On the toy platform: `paddedUrl`, whose other parameters are `a`,
`b` and `admin` with message `a=1admin=1b=2`, is accepted with the digest of
`a=1b=2`, and `buriedUrl` is refused. -/
theorem verifyAppProxySignature_reads_only_1000_pairs :
    (∀ (P : Platform) (secret : Option JSString) (mac : Bytes) (extra : JSString),
      verifyAppProxySignature P
          (js "/sync?a=1&b=2&signature=" ++ hexEncode mac ++ ampersands 998 ++ extra) secret =
        verifyAppProxySignature P (js "/sync?a=1&b=2&signature=" ++ hexEncode mac) secret) ∧
    (∀ (P : Platform) (secret : Option JSString) (rest : JSString),
      verifyAppProxySignature P (js "/sync?" ++ ampersands 1000 ++ rest) secret = .ok false) ∧
    verifyAppProxySignature toyPlatform paddedUrl (some (js "shhh")) = .ok true ∧
    canonicalMessage
        [(js "a", .str (js "1")), (js "b", .str (js "2")), (js "admin", .str (js "1"))] =
      js "a=1admin=1b=2" ∧
    sampleSignature ≠ queryDigest toyPlatform (js "shhh") (js "a=1admin=1b=2") ∧
    verifyAppProxySignature toyPlatform buriedUrl (some (js "shhh")) = .ok false ∧
    queryDigest toyPlatform (js "shhh") (canonicalMessage []) ≠ [] := by
  refine ⟨fun P secret mac extra => verify_padded P secret _ extra (isPlainCode_hexEncode mac),
    verify_buried, ?_, by decide, by decide, ?_, by decide⟩
  · exact (verify_padded toyPlatform (some (js "shhh")) sampleSignature (js "admin=1")
      (by decide)).trans rfl
  · have e : buriedUrl = js "/sync?" ++ ampersands 1000 ++
        (js "signature=" ++ queryDigest toyPlatform (js "shhh") []) := by
      simp only [buriedUrl, List.append_assoc]
    rw [e]
    exact verify_buried toyPlatform _ _

end MatchPrestige
